import Mathlib

/-!
Shallow embedding of the fixed_containers dense-slot associative engine
(enum_map.hpp: class EnumMapBase and the non-trivially-copyable EnumMap
specialization) together with the generic BidirectionalIterator
(bidirectional_iterator.hpp).

Modelling conventions, stated once:
- The external EnumAdapter maps the key domain bijectively onto the
  ordinals 0..N-1; we work directly with ordinals, so the key type is
  Fin N, EnumAdapterType.ordinal is the identity and ENUM_VALUES i = i.
- A slot of OptionalStorage<V> is modelled as Option V: none is an
  unconstructed slot, some v a placement-constructed element.
- The size counter is std::size_t in the source.  Its arithmetic never
  under- or overflows in any state in which the source performs it
  (reset_at asserts presence of the slot and size is bounded by the
  popcount in well-formed states), so it is modelled as a plain Nat.
- The injectable Checking policy's operations are divergent
  (non-returning); divergence is modelled by Except.error carrying
  which checking operation fired.
-/

namespace FixedContainers

/-- The Checking policy capability set of enum_map.hpp
(EnumMapChecking / AbortChecking): each member is a divergent
operation; the value records which one fired and its arguments. -/
inductive CheckViolation (N : Nat) where
  | out_of_range (key : Fin N) (size : Nat)
  | missing_enum_entries
  | duplicate_enum_entries
deriving DecidableEq

/-- optional_storage_detail::get on a slot.  Calling it on an
unconstructed slot is undefined behaviour in the source; it is modelled
as an arbitrary default value. -/
def optionalStorageGet {V : Type} [Inhabited V] (o : Option V) : V := o.getD default

/-- The data members of EnumMapBase (enum_map.hpp lines 495-497):
the value-slot array, the presence-bit array and the cached size. -/
structure EnumMapBase (N : Nat) (V : Type) where
  values : Fin N → Option V
  array_set : Fin N → Bool
  size : Nat

namespace EnumMapBase

variable {N : Nat} {V : Type}

/-- The default constructor EnumMapBase(): all slots unconstructed, all
presence bits false, size zero. -/
def empty (N : Nat) (V : Type) : EnumMapBase N V :=
  { values := fun _ => none, array_set := fun _ => false, size := 0 }

/-- contains_at(i): reads the presence bit. -/
def contains_at (m : EnumMapBase N V) (i : Fin N) : Bool := m.array_set i

/-- Number of true presence bits. -/
def popcount (m : EnumMapBase N V) : Nat := (List.finRange N).countP m.array_set

/-- The documented engine invariant: the cached size equals the number
of true presence bits. -/
def wf (m : EnumMapBase N V) : Prop := m.size = m.popcount

instance (m : EnumMapBase N V) : Decidable m.wf :=
  inferInstanceAs (Decidable (m.size = m.popcount))

/-- reset_at(i): destroy the element, clear the presence bit, decrement
the size (enum_map.hpp lines 833-842). -/
def reset_at (m : EnumMapBase N V) (i : Fin N) : EnumMapBase N V :=
  { values := Function.update m.values i none,
    array_set := Function.update m.array_set i false,
    size := m.size - 1 }

/-- insert(value): no-op returning (iterator-to-existing, false) when
the presence bit is set; otherwise increments size, sets the bit and
constructs the element (enum_map.hpp lines 595-607).  The returned
iterator is identified by the ordinal it points to. -/
def insert (m : EnumMapBase N V) (k : Fin N) (v : V) :
    (Fin N × Bool) × EnumMapBase N V :=
  if m.array_set k then ((k, false), m)
  else ((k, true),
    { values := Function.update m.values k (some v),
      array_set := Function.update m.array_set k true,
      size := m.size + 1 })

/-- touch_if_not_present(ordinal): the mutating part of operator[];
value-initializes the element when absent (enum_map.hpp lines 796-806). -/
def touch_if_not_present [Inhabited V] (m : EnumMapBase N V) (k : Fin N) :
    EnumMapBase N V :=
  if m.contains_at k then m
  else
    { values := Function.update m.values k (some default),
      array_set := Function.update m.array_set k true,
      size := m.size + 1 }

/-- insert_or_assign(key, obj): on insertion increments size and sets the
bit; in both cases assigns the slot (enum_map.hpp lines 635-648). -/
def insert_or_assign (m : EnumMapBase N V) (k : Fin N) (v : V) :
    (Fin N × Bool) × EnumMapBase N V :=
  if m.array_set k then
    ((k, false), { m with values := Function.update m.values k (some v) })
  else
    ((k, true),
      { values := Function.update m.values k (some v),
        array_set := Function.update m.array_set k true,
        size := m.size + 1 })

/-- try_emplace(key, args...): constructs in place only when absent
(enum_map.hpp lines 656-670); the constructed element is v. -/
def try_emplace (m : EnumMapBase N V) (k : Fin N) (v : V) :
    (Fin N × Bool) × EnumMapBase N V :=
  if m.array_set k then ((k, false), m)
  else ((k, true),
    { values := Function.update m.values k (some v),
      array_set := Function.update m.array_set k true,
      size := m.size + 1 })

/-- emplace(args...): builds the (key, value) pair and delegates to
try_emplace (enum_map.hpp lines 679-684). -/
def emplace (m : EnumMapBase N V) (k : Fin N) (v : V) :
    (Fin N × Bool) × EnumMapBase N V :=
  m.try_emplace k v

/-- erase(key): returns 0 when absent, else reset_at and returns 1
(enum_map.hpp lines 727-737). -/
def erase (m : EnumMapBase N V) (k : Fin N) : Nat × EnumMapBase N V :=
  if m.contains_at k then (1, m.reset_at k) else (0, m)

/-- One iteration of the clear() loop body: reset the slot when its
presence bit is set. -/
def clearStep (m : EnumMapBase N V) (i : Fin N) : EnumMapBase N V :=
  if m.array_set i then m.reset_at i else m

/-- clear(): resets every present slot, index 0 upward
(enum_map.hpp lines 584-594). -/
def clear (m : EnumMapBase N V) : EnumMapBase N V :=
  (List.finRange N).foldl clearStep m

/-- at(key): diverges through Checking::out_of_range(key, size) when the
presence bit is clear, else yields the live element
(enum_map.hpp lines 521-531).  at does not mutate the engine. -/
def at_ [Inhabited V] (m : EnumMapBase N V) (k : Fin N) :
    Except (CheckViolation N) V :=
  if m.array_set k then Except.ok (optionalStorageGet (m.values k))
  else Except.error (CheckViolation.out_of_range k m.size)

/-- find(key): end() when absent (modelled none), else the iterator at
the ordinal (enum_map.hpp lines 739-748). -/
def find (m : EnumMapBase N V) (k : Fin N) : Option (Fin N) :=
  if m.contains_at k then some k else none

/-- Dereferencing the iterator at ordinal i: PairProvider::get yields
(ENUM_VALUES[i], values[i].get()) (enum_map.hpp lines 422-431). -/
def iter_deref [Inhabited V] (m : EnumMapBase N V) (i : Fin N) : Fin N × V :=
  (i, optionalStorageGet (m.values i))

/-- EnumMap(const EnumMap&) of the non-trivially-copyable specialization
(enum_map.hpp lines 970-982): starts from the default-constructed map,
copies the presence bits and the size, then copy-constructs each present
slot from the source slot. -/
def copy_construct (other : EnumMapBase N V) : EnumMapBase N V :=
  { values := fun i => if other.array_set i then other.values i else none,
    array_set := other.array_set,
    size := other.size }

/-- EnumMap(EnumMap&&) (enum_map.hpp lines 983-999): copies presence bits
and size, move-constructs each present slot, then calls other.clear().
Returns (the constructed map, the source after the operation). -/
def move_construct (other : EnumMapBase N V) :
    EnumMapBase N V × EnumMapBase N V :=
  ({ values := fun i => if other.array_set i then other.values i else none,
     array_set := other.array_set,
     size := other.size },
   other.clear)

/-- operator=(const EnumMap&) (enum_map.hpp lines 1000-1018).  aliased
models the pointer test this == &other; when aliased the operator
early-returns.  Otherwise: this->clear(), copy bits and size, copy each
present slot from other; slots absent in other keep their post-clear
contents. -/
def copy_assign (dest other : EnumMapBase N V) (aliased : Bool) :
    EnumMapBase N V :=
  if aliased then dest
  else
    { values := fun i => if other.array_set i then other.values i
                         else dest.clear.values i,
      array_set := other.array_set,
      size := other.size }

/-- The body of operator=(const EnumMap&) with the self-assignment guard
removed, executed under aliasing (this == &other): after this->clear(),
every read of other observes the already-cleared map. -/
def copy_assign_unguarded_self (m : EnumMapBase N V) : EnumMapBase N V :=
  { values := fun i => if m.clear.array_set i then m.clear.values i
                       else m.clear.values i,
    array_set := m.clear.array_set,
    size := m.clear.size }

/-- operator=(EnumMap&&) (enum_map.hpp lines 1019-1042): like copy
assignment but move-constructs the present slots; deliberately does NOT
clear the source (see the source comment).  Returns
(dest after the operation, source after the operation). -/
def move_assign (dest other : EnumMapBase N V) (aliased : Bool) :
    EnumMapBase N V × EnumMapBase N V :=
  if aliased then (dest, other)
  else
    ({ values := fun i => if other.array_set i then other.values i
                          else dest.clear.values i,
       array_set := other.array_set,
       size := other.size },
     other)

/-- The loop of create_with_all_entries (enum_map.hpp lines 475-483):
inserts each pair in order; when an insert reports was_inserted == false
the Checking policy's duplicate_enum_entries diverges. -/
def insertAllLoop : List (Fin N × V) → EnumMapBase N V →
    Except (CheckViolation N) (EnumMapBase N V)
  | [], acc => Except.ok acc
  | p :: rest, acc =>
      if ((acc.insert p.1 p.2).1).2 then insertAllLoop rest (acc.insert p.1 p.2).2
      else Except.error CheckViolation.duplicate_enum_entries

/-- create_with_all_entries(pairs) (enum_map.hpp lines 470-490): builds
from empty by inserting every pair, diverging through
duplicate_enum_entries on a failed insert, then diverging through
missing_enum_entries when the final size differs from the domain
cardinality N. -/
def create_with_all_entries (pairs : List (Fin N × V)) :
    Except (CheckViolation N) (EnumMapBase N V) :=
  match insertAllLoop pairs (empty N V) with
  | Except.error e => Except.error e
  | Except.ok output =>
      if output.size = N then Except.ok output
      else Except.error CheckViolation.missing_enum_entries

end EnumMapBase

/-- The mutating operations of the engine, used to state the
reachability claim over operation sequences. -/
inductive MutOp (N : Nat) (V : Type) where
  | insertOp (k : Fin N) (v : V)
  | indexOp (k : Fin N)
  | insertOrAssignOp (k : Fin N) (v : V)
  | tryEmplaceOp (k : Fin N) (v : V)
  | emplaceOp (k : Fin N) (v : V)
  | eraseOp (k : Fin N)
  | clearOp

/-- Apply one mutating operation (discarding returned iterators). -/
def applyMutOp {N : Nat} {V : Type} [Inhabited V]
    (m : EnumMapBase N V) : MutOp N V → EnumMapBase N V
  | MutOp.insertOp k v => (m.insert k v).2
  | MutOp.indexOp k => m.touch_if_not_present k
  | MutOp.insertOrAssignOp k v => (m.insert_or_assign k v).2
  | MutOp.tryEmplaceOp k v => (m.try_emplace k v).2
  | MutOp.emplaceOp k v => (m.emplace k v).2
  | MutOp.eraseOp k => (m.erase k).2
  | MutOp.clearOp => m.clear

/-- Apply a sequence of mutating operations, oldest first. -/
def applyMutOps {N : Nat} {V : Type} [Inhabited V]
    (ops : List (MutOp N V)) (m : EnumMapBase N V) : EnumMapBase N V :=
  ops.foldl applyMutOp m

/-- The single-key mutating operations named by the frame claim. -/
inductive SingleKeyOp (V : Type) where
  | insertOp (v : V)
  | indexOp
  | insertOrAssignOp (v : V)
  | tryEmplaceOp (v : V)
  | eraseOp

/-- Apply one single-key mutating operation at key k. -/
def applySingleKeyOp {N : Nat} {V : Type} [Inhabited V]
    (op : SingleKeyOp V) (k : Fin N) (m : EnumMapBase N V) : EnumMapBase N V :=
  match op with
  | SingleKeyOp.insertOp v => (m.insert k v).2
  | SingleKeyOp.indexOp => m.touch_if_not_present k
  | SingleKeyOp.insertOrAssignOp v => (m.insert_or_assign k v).2
  | SingleKeyOp.tryEmplaceOp v => (m.try_emplace k v).2
  | SingleKeyOp.eraseOp => (m.erase k).2

/-- IteratorDirection of iterator_utils.hpp. -/
inductive IteratorDirection where
  | FORWARD
  | REVERSE
deriving DecidableEq

/-- Flip of the direction, as in IteratorDirection(!bool(DIRECTION)). -/
def IteratorDirection.flip : IteratorDirection → IteratorDirection
  | IteratorDirection.FORWARD => IteratorDirection.REVERSE
  | IteratorDirection.REVERSE => IteratorDirection.FORWARD

/-- First index j in the list with c < j and pred j, as an Int; N when
none exists (the end position). -/
def scanFirst {N : Nat} (pred : Fin N → Bool) (c : Int) :
    List (Fin N) → Int
  | [] => (N : Int)
  | j :: rest =>
      if c < (j.val : Int) ∧ pred j = true then (j.val : Int)
      else scanFirst pred c rest

/-- First index j in the list with j < c and pred j, as an Int; -1 when
none exists (the before-begin position).  Applied to the reversed index
list this yields the last satisfying index below c. -/
def scanLast {N : Nat} (pred : Fin N → Bool) (c : Int) :
    List (Fin N) → Int
  | [] => -1
  | j :: rest =>
      if (j.val : Int) < c ∧ pred j = true then (j.val : Int)
      else scanLast pred c rest

/-- Modelled from the spec: the Index-Range Predicate Iterator's
reference-provider state (its source, index_range_predicate_iterator.hpp,
is not part of src/).  Spec 4.3/4.4: a cursor over indices 0..N-1 that
skips indices where the predicate is false; positions are before-begin
(-1, reverse only), satisfying indices, and end (N). -/
structure IndexRangeProvider (N : Nat) where
  pred : Fin N → Bool
  current : Int

/-- Modelled from the spec: advance moves to the next
predicate-satisfying index, or to end = N. -/
def IndexRangeProvider.advance {N : Nat} (p : IndexRangeProvider N) :
    IndexRangeProvider N :=
  { p with current := scanFirst p.pred p.current (List.finRange N) }

/-- Modelled from the spec: recede moves to the previous
predicate-satisfying index, or to before-begin = -1. -/
def IndexRangeProvider.recede {N : Nat} (p : IndexRangeProvider N) :
    IndexRangeProvider N :=
  { p with current := scanLast p.pred p.current (List.finRange N).reverse }

/-- BidirectionalIterator (bidirectional_iterator.hpp): a direction tag
plus the wrapped reference provider. -/
structure BidirectionalIterator (N : Nat) where
  dir : IteratorDirection
  reference_provider_ : IndexRangeProvider N

namespace BidirectionalIterator

/-- advance() (lines 151-161): calls the provider's advance for FORWARD
and its recede for REVERSE. -/
def advanceIt {N : Nat} (it : BidirectionalIterator N) :
    BidirectionalIterator N :=
  match it.dir with
  | IteratorDirection.FORWARD =>
      { it with reference_provider_ := it.reference_provider_.advance }
  | IteratorDirection.REVERSE =>
      { it with reference_provider_ := it.reference_provider_.recede }

/-- recede() (lines 162-172): the flipped mapping. -/
def recedeIt {N : Nat} (it : BidirectionalIterator N) :
    BidirectionalIterator N :=
  match it.dir with
  | IteratorDirection.FORWARD =>
      { it with reference_provider_ := it.reference_provider_.recede }
  | IteratorDirection.REVERSE =>
      { it with reference_provider_ := it.reference_provider_.advance }

/-- The converting constructor (lines 73-80): stores the provider and,
when the direction is REVERSE, calls advance() once, pre-advancing past
the conceptual one-past-end position. -/
def construct {N : Nat} (dir : IteratorDirection)
    (p : IndexRangeProvider N) : BidirectionalIterator N :=
  match dir with
  | IteratorDirection.FORWARD =>
      { dir := IteratorDirection.FORWARD, reference_provider_ := p }
  | IteratorDirection.REVERSE =>
      advanceIt { dir := IteratorDirection.REVERSE, reference_provider_ := p }

/-- base() (lines 142-148): constructs the flipped-direction iterator
from the same provider and increments it once. -/
def base {N : Nat} (it : BidirectionalIterator N) : BidirectionalIterator N :=
  advanceIt (construct it.dir.flip it.reference_provider_)

end BidirectionalIterator

/-- Modelled from the spec: the engine's iterator factory
(create_iterator and the IndexRangePredicateIterator constructor, whose
source is not part of src/).  A forward iterator starts at the first
predicate-satisfying index at or after start_index (or at end); a
reverse iterator starts from start_index and the BidirectionalIterator
reverse constructor pre-advances it. -/
def mkEngineIterator {N : Nat} (dir : IteratorDirection)
    (pred : Fin N → Bool) (start_index : Nat) : BidirectionalIterator N :=
  match dir with
  | IteratorDirection.FORWARD =>
      BidirectionalIterator.construct IteratorDirection.FORWARD
        { pred := pred,
          current := scanFirst pred ((start_index : Int) - 1) (List.finRange N) }
  | IteratorDirection.REVERSE =>
      BidirectionalIterator.construct IteratorDirection.REVERSE
        { pred := pred, current := (start_index : Int) }

namespace EnumMapBase

variable {N : Nat} {V : Type}

/-- begin(): forward iterator from index 0 (enum_map.hpp line 560). -/
def beginIt (m : EnumMapBase N V) : BidirectionalIterator N :=
  mkEngineIterator IteratorDirection.FORWARD m.array_set 0

/-- end(): forward iterator from index ENUM_COUNT (line 562). -/
def endIt (m : EnumMapBase N V) : BidirectionalIterator N :=
  mkEngineIterator IteratorDirection.FORWARD m.array_set N

/-- rbegin(): reverse iterator from index ENUM_COUNT (line 564). -/
def rbeginIt (m : EnumMapBase N V) : BidirectionalIterator N :=
  mkEngineIterator IteratorDirection.REVERSE m.array_set N

/-- rend(): reverse iterator from index 0 (line 570). -/
def rendIt (m : EnumMapBase N V) : BidirectionalIterator N :=
  mkEngineIterator IteratorDirection.REVERSE m.array_set 0

end EnumMapBase

/-- A concrete one-element engine over two ordinals, used by the
witnesses. -/
def sampleMap : EnumMapBase 2 Nat := ((EnumMapBase.empty 2 Nat).insert 0 7).2

section CountLemmas

variable {N : Nat}

theorem countP_update_of_not_mem (f : Fin N → Bool) (i : Fin N) (b : Bool)
    (l : List (Fin N)) (hi : i ∉ l) :
    l.countP (Function.update f i b) = l.countP f := by
  induction l with
  | nil => rfl
  | cons x xs ih =>
      simp only [List.countP_cons]
      rw [ih (fun h => hi (List.mem_cons_of_mem _ h))]
      have hx : x ≠ i := by
        rintro rfl
        exact hi (List.mem_cons_self x xs)
      rw [Function.update_noteq hx]

theorem countP_update_set (f : Fin N → Bool) (i : Fin N)
    (l : List (Fin N)) (hl : l.Nodup) (hi : i ∈ l) (hfi : f i = false) :
    l.countP (Function.update f i true) = l.countP f + 1 := by
  induction l with
  | nil => cases hi
  | cons x xs ih =>
      rcases List.mem_cons.mp hi with rfl | h
      · have hx : i ∉ xs := (List.nodup_cons.mp hl).1
        simp only [List.countP_cons]
        rw [countP_update_of_not_mem f i true xs hx,
            Function.update_same, hfi]
        simp
      · have hne : x ≠ i := by
          rintro rfl
          exact (List.nodup_cons.mp hl).1 h
        simp only [List.countP_cons]
        rw [ih (List.nodup_cons.mp hl).2 h, Function.update_noteq hne]
        omega

theorem countP_update_clear (f : Fin N → Bool) (i : Fin N)
    (l : List (Fin N)) (hl : l.Nodup) (hi : i ∈ l) (hfi : f i = true) :
    l.countP (Function.update f i false) + 1 = l.countP f := by
  induction l with
  | nil => cases hi
  | cons x xs ih =>
      rcases List.mem_cons.mp hi with rfl | h
      · have hx : i ∉ xs := (List.nodup_cons.mp hl).1
        simp only [List.countP_cons]
        rw [countP_update_of_not_mem f i false xs hx,
            Function.update_same, hfi]
        simp
      · have hne : x ≠ i := by
          rintro rfl
          exact (List.nodup_cons.mp hl).1 h
        simp only [List.countP_cons]
        have hih := ih (List.nodup_cons.mp hl).2 h
        rw [Function.update_noteq hne]
        omega

end CountLemmas

namespace EnumMapBase

variable {N : Nat} {V : Type}

theorem reset_at_wf (m : EnumMapBase N V) (i : Fin N)
    (hb : m.array_set i = true) (hw : m.wf) : (m.reset_at i).wf := by
  unfold wf popcount reset_at at *
  dsimp only
  have hc := countP_update_clear m.array_set i (List.finRange N)
    (List.nodup_finRange N) (List.mem_finRange i) hb
  omega

theorem clearStep_wf (m : EnumMapBase N V) (i : Fin N) (hw : m.wf) :
    (m.clearStep i).wf := by
  unfold clearStep
  split
  · exact reset_at_wf m i (by assumption) hw
  · exact hw

theorem clearFold_wf (l : List (Fin N)) (m : EnumMapBase N V) (hw : m.wf) :
    (l.foldl clearStep m).wf := by
  induction l generalizing m with
  | nil => exact hw
  | cons x xs ih => exact ih _ (clearStep_wf m x hw)

theorem clear_wf (m : EnumMapBase N V) (hw : m.wf) : m.clear.wf :=
  clearFold_wf (List.finRange N) m hw

theorem clearStep_array_set_false (m : EnumMapBase N V) (j i : Fin N)
    (h : m.array_set i = false) : (m.clearStep j).array_set i = false := by
  unfold clearStep reset_at
  split
  · dsimp only
    by_cases hij : i = j
    · subst hij
      rw [Function.update_same]
    · rw [Function.update_noteq hij]
      exact h
  · exact h

theorem clearFold_array_set_false (l : List (Fin N)) (m : EnumMapBase N V)
    (i : Fin N) (h : m.array_set i = false) :
    (l.foldl clearStep m).array_set i = false := by
  induction l generalizing m with
  | nil => exact h
  | cons x xs ih => exact ih _ (clearStep_array_set_false m x i h)

theorem clearFold_array_set_mem (l : List (Fin N)) (m : EnumMapBase N V)
    (i : Fin N) (h : i ∈ l) : (l.foldl clearStep m).array_set i = false := by
  induction l generalizing m with
  | nil => cases h
  | cons x xs ih =>
      rcases List.mem_cons.mp h with rfl | h2
      · rw [List.foldl_cons]
        apply clearFold_array_set_false
        unfold clearStep reset_at
        split
        · dsimp only
          rw [Function.update_same]
        · next h3 =>
            simp only [Bool.not_eq_true] at h3
            exact h3
      · exact ih _ h2

/-- After clear(), every presence bit is false. -/
theorem clear_array_set (m : EnumMapBase N V) (i : Fin N) :
    m.clear.array_set i = false :=
  clearFold_array_set_mem (List.finRange N) m i (List.mem_finRange i)

/-- After clear() of a well-formed engine, the size is zero. -/
theorem clear_size (m : EnumMapBase N V) (hw : m.wf) : m.clear.size = 0 := by
  have h := clear_wf m hw
  unfold wf popcount at h
  rw [h]
  rw [List.countP_eq_zero]
  intro a _
  simp [clear_array_set m a]

theorem set_bit_wf (m : EnumMapBase N V) (k : Fin N) (o : Option V)
    (hb : m.array_set k = false) (hw : m.wf) :
    wf { values := Function.update m.values k o,
         array_set := Function.update m.array_set k true,
         size := m.size + 1 } := by
  unfold wf popcount at *
  dsimp only
  have hc := countP_update_set m.array_set k (List.finRange N)
    (List.nodup_finRange N) (List.mem_finRange k) hb
  omega

theorem insert_wf (m : EnumMapBase N V) (k : Fin N) (v : V) (hw : m.wf) :
    ((m.insert k v).2).wf := by
  unfold insert
  split
  · exact hw
  · next hb =>
      simp only [Bool.not_eq_true] at hb
      exact set_bit_wf m k (some v) hb hw

theorem touch_if_not_present_wf [Inhabited V] (m : EnumMapBase N V) (k : Fin N)
    (hw : m.wf) : (m.touch_if_not_present k).wf := by
  unfold touch_if_not_present contains_at
  split
  · exact hw
  · next hb =>
      simp only [Bool.not_eq_true] at hb
      exact set_bit_wf m k (some default) hb hw

theorem insert_or_assign_wf (m : EnumMapBase N V) (k : Fin N) (v : V)
    (hw : m.wf) : ((m.insert_or_assign k v).2).wf := by
  unfold insert_or_assign
  split
  · unfold wf popcount at *
    exact hw
  · next hb =>
      simp only [Bool.not_eq_true] at hb
      exact set_bit_wf m k (some v) hb hw

theorem try_emplace_wf (m : EnumMapBase N V) (k : Fin N) (v : V) (hw : m.wf) :
    ((m.try_emplace k v).2).wf := by
  unfold try_emplace
  split
  · exact hw
  · next hb =>
      simp only [Bool.not_eq_true] at hb
      exact set_bit_wf m k (some v) hb hw

theorem emplace_wf (m : EnumMapBase N V) (k : Fin N) (v : V) (hw : m.wf) :
    ((m.emplace k v).2).wf :=
  try_emplace_wf m k v hw

theorem erase_wf (m : EnumMapBase N V) (k : Fin N) (hw : m.wf) :
    ((m.erase k).2).wf := by
  unfold erase contains_at
  split
  · next hb => exact reset_at_wf m k hb hw
  · exact hw

theorem empty_wf : (empty N V).wf := by
  unfold wf popcount empty
  dsimp only
  symm
  rw [List.countP_eq_zero]
  intro a _
  simp

end EnumMapBase

theorem applyMutOp_wf {N : Nat} {V : Type} [Inhabited V]
    (m : EnumMapBase N V) (op : MutOp N V) (hw : m.wf) :
    (applyMutOp m op).wf := by
  cases op with
  | insertOp k v => exact EnumMapBase.insert_wf m k v hw
  | indexOp k => exact EnumMapBase.touch_if_not_present_wf m k hw
  | insertOrAssignOp k v => exact EnumMapBase.insert_or_assign_wf m k v hw
  | tryEmplaceOp k v => exact EnumMapBase.try_emplace_wf m k v hw
  | emplaceOp k v => exact EnumMapBase.emplace_wf m k v hw
  | eraseOp k => exact EnumMapBase.erase_wf m k hw
  | clearOp => exact EnumMapBase.clear_wf m hw

theorem applyMutOps_wf {N : Nat} {V : Type} [Inhabited V]
    (ops : List (MutOp N V)) (m : EnumMapBase N V) (hw : m.wf) :
    (applyMutOps ops m).wf := by
  induction ops generalizing m with
  | nil => exact hw
  | cons op rest ih => exact ih _ (applyMutOp_wf m op hw)

/-- Claim C1: for every engine state reachable from the empty engine by
any sequence of the mutating operations (insert, operator[],
insert_or_assign, try_emplace, emplace, erase, clear), the cached
counter returned by size() equals the number of true presence bits. -/
theorem size_eq_popcount_of_reachable {N : Nat} {V : Type} [Inhabited V]
    (ops : List (MutOp N V)) :
    (applyMutOps ops (EnumMapBase.empty N V)).size =
      (applyMutOps ops (EnumMapBase.empty N V)).popcount :=
  applyMutOps_wf ops (EnumMapBase.empty N V) EnumMapBase.empty_wf

/-- Claim C3: at(key) diverges through the Checking policy's
out_of_range(key, size) exactly when the presence bit at the key's
ordinal is false; when the key is present, at yields the element stored
in the slot (at is defined without mutating the engine). -/
theorem at_spec {N : Nat} {V : Type} [Inhabited V]
    (m : EnumMapBase N V) (k : Fin N) :
    (m.at_ k = Except.error (CheckViolation.out_of_range k m.size) ↔
      m.array_set k = false) ∧
    (m.array_set k = true →
      m.at_ k = Except.ok (optionalStorageGet (m.values k))) := by
  constructor
  · constructor
    · intro h
      by_cases hb : m.array_set k = true
      · unfold EnumMapBase.at_ at h
        rw [if_pos hb] at h
        cases h
      · simpa using hb
    · intro h
      unfold EnumMapBase.at_
      rw [if_neg (by simp [h])]
  · intro h
    unfold EnumMapBase.at_
    rw [if_pos h]

theorem at_spec_witness :
    sampleMap.array_set 0 = true ∧
    sampleMap.at_ 0 = Except.ok (optionalStorageGet (sampleMap.values 0)) :=
  ⟨by decide, (at_spec sampleMap 0).2 (by decide)⟩

/-- Claim C5: insert of (k, v) returns (iterator-to-existing, false) and
leaves the engine unchanged (including the stored value at k) when k is
present; when k is absent it constructs v in slot k, sets the presence
bit, increments size and returns (iterator-to-new, true). -/
theorem insert_spec {N : Nat} {V : Type}
    (m : EnumMapBase N V) (k : Fin N) (v : V) :
    (m.array_set k = true → m.insert k v = ((k, false), m)) ∧
    (m.array_set k = false →
      (m.insert k v).1 = (k, true) ∧
      ((m.insert k v).2).values k = some v ∧
      ((m.insert k v).2).array_set k = true ∧
      ((m.insert k v).2).size = m.size + 1) := by
  constructor
  · intro h
    unfold EnumMapBase.insert
    rw [if_pos h]
  · intro h
    unfold EnumMapBase.insert
    rw [if_neg (by simp [h])]
    refine ⟨rfl, ?_, ?_, rfl⟩
    · dsimp only
      rw [Function.update_same]
    · dsimp only
      rw [Function.update_same]

theorem insert_spec_witness :
    (sampleMap.array_set 0 = true ∧
      sampleMap.insert 0 99 = ((0, false), sampleMap)) ∧
    (sampleMap.array_set 1 = false ∧
      ((sampleMap.insert 1 5).2).size = sampleMap.size + 1) :=
  ⟨⟨by decide, (insert_spec sampleMap 0 99).1 (by decide)⟩,
   ⟨by decide, ((insert_spec sampleMap 1 5).2 (by decide)).2.2.2⟩⟩

/-- Claim C6: erase(k) returns 1 and removes the entry (presence bit
cleared, element destroyed, size decremented) when k is present, and
returns 0 leaving the engine unchanged when k is absent; two consecutive
erases of the same key return 1 then 0. -/
theorem erase_spec {N : Nat} {V : Type}
    (m : EnumMapBase N V) (k : Fin N) (hw : m.wf) :
    (m.array_set k = true →
      (m.erase k).1 = 1 ∧
      ((m.erase k).2).array_set k = false ∧
      ((m.erase k).2).values k = none ∧
      ((m.erase k).2).size + 1 = m.size ∧
      (((m.erase k).2).erase k).1 = 0) ∧
    (m.array_set k = false → m.erase k = (0, m)) := by
  constructor
  · intro h
    have hpos : 0 < m.popcount := by
      unfold EnumMapBase.popcount
      rw [List.countP_pos_iff]
      exact ⟨k, List.mem_finRange k, h⟩
    unfold EnumMapBase.erase EnumMapBase.contains_at EnumMapBase.reset_at
    rw [if_pos h]
    refine ⟨rfl, ?_, ?_, ?_, ?_⟩
    · dsimp only
      rw [Function.update_same]
    · dsimp only
      rw [Function.update_same]
    · dsimp only
      unfold EnumMapBase.wf at hw
      omega
    · dsimp only
      rw [if_neg (by simp [Function.update_same])]
  · intro h
    unfold EnumMapBase.erase EnumMapBase.contains_at
    rw [if_neg (by simp [h])]

theorem erase_spec_witness :
    sampleMap.wf ∧ sampleMap.array_set 0 = true ∧
    ((sampleMap.erase 0).1 = 1 ∧
      ((sampleMap.erase 0).2).array_set 0 = false ∧
      ((sampleMap.erase 0).2).values 0 = none ∧
      ((sampleMap.erase 0).2).size + 1 = sampleMap.size ∧
      (((sampleMap.erase 0).2).erase 0).1 = 0) :=
  ⟨by decide, by decide, (erase_spec sampleMap 0 (by decide)).1 (by decide)⟩

/-- Claim C7: after a successful insert of (k, v), find(k) is not end()
and dereferences to the pair (k, v); after erase(k), find(k) is end()
(end is modelled as none). -/
theorem insert_find_erase_round_trip {N : Nat} {V : Type} [Inhabited V]
    (m : EnumMapBase N V) (k : Fin N) (v : V)
    (h : ((m.insert k v).1).2 = true) :
    ((m.insert k v).2).find k = some k ∧
    ((m.insert k v).2).find k ≠ none ∧
    ((m.insert k v).2).iter_deref k = (k, v) ∧
    ((((m.insert k v).2).erase k).2).find k = none := by
  have hb : m.array_set k = false := by
    by_contra hc
    simp only [Bool.not_eq_false] at hc
    unfold EnumMapBase.insert at h
    rw [if_pos hc] at h
    cases h
  have hins : m.insert k v = ((k, true),
      { values := Function.update m.values k (some v),
        array_set := Function.update m.array_set k true,
        size := m.size + 1 }) := by
    unfold EnumMapBase.insert
    rw [if_neg (by simp [hb])]
  rw [hins]
  refine ⟨?_, ?_, ?_, ?_⟩
  · unfold EnumMapBase.find EnumMapBase.contains_at
    dsimp only
    rw [if_pos (by rw [Function.update_same])]
  · unfold EnumMapBase.find EnumMapBase.contains_at
    dsimp only
    rw [if_pos (by rw [Function.update_same])]
    simp
  · unfold EnumMapBase.iter_deref optionalStorageGet
    dsimp only
    rw [Function.update_same]
    rfl
  · have hc : EnumMapBase.contains_at
        { values := Function.update m.values k (some v),
          array_set := Function.update m.array_set k true,
          size := m.size + 1 } k = true := by
      unfold EnumMapBase.contains_at
      dsimp only
      rw [Function.update_same]
    unfold EnumMapBase.erase
    rw [if_pos hc]
    unfold EnumMapBase.reset_at EnumMapBase.find EnumMapBase.contains_at
    dsimp only
    rw [if_neg (by simp [Function.update_same])]

theorem insert_find_erase_round_trip_witness :
    ((sampleMap.insert 1 5).1).2 = true ∧
    (((sampleMap.insert 1 5).2).find 1 = some 1 ∧
      ((sampleMap.insert 1 5).2).find 1 ≠ none ∧
      ((sampleMap.insert 1 5).2).iter_deref 1 = (1, 5) ∧
      ((((sampleMap.insert 1 5).2).erase 1).2).find 1 = none) :=
  ⟨by decide, insert_find_erase_round_trip sampleMap 1 5 (by decide)⟩

/-- Claim C8: each single-key mutating operation (insert, operator[],
insert_or_assign, try_emplace, erase) changes at most the presence bit
and slot storage at its key's ordinal and the shared size counter: every
other slot's presence bit and stored element are unchanged. -/
theorem single_key_op_frame {N : Nat} {V : Type} [Inhabited V]
    (op : SingleKeyOp V) (k : Fin N) (m : EnumMapBase N V)
    (j : Fin N) (hj : j ≠ k) :
    (applySingleKeyOp op k m).array_set j = m.array_set j ∧
    (applySingleKeyOp op k m).values j = m.values j := by
  cases op with
  | insertOp v =>
      show ((m.insert k v).2.array_set j = _) ∧ ((m.insert k v).2.values j = _)
      unfold EnumMapBase.insert
      split <;> simp [Function.update_noteq hj]
  | indexOp =>
      show ((m.touch_if_not_present k).array_set j = _) ∧
        ((m.touch_if_not_present k).values j = _)
      unfold EnumMapBase.touch_if_not_present EnumMapBase.contains_at
      split <;> simp [Function.update_noteq hj]
  | insertOrAssignOp v =>
      show ((m.insert_or_assign k v).2.array_set j = _) ∧
        ((m.insert_or_assign k v).2.values j = _)
      unfold EnumMapBase.insert_or_assign
      split <;> simp [Function.update_noteq hj]
  | tryEmplaceOp v =>
      show ((m.try_emplace k v).2.array_set j = _) ∧
        ((m.try_emplace k v).2.values j = _)
      unfold EnumMapBase.try_emplace
      split <;> simp [Function.update_noteq hj]
  | eraseOp =>
      show ((m.erase k).2.array_set j = _) ∧ ((m.erase k).2.values j = _)
      unfold EnumMapBase.erase EnumMapBase.reset_at EnumMapBase.contains_at
      split <;> simp [Function.update_noteq hj]

theorem single_key_op_frame_witness :
    ((1 : Fin 2) ≠ 0) ∧
    ((applySingleKeyOp (SingleKeyOp.eraseOp : SingleKeyOp Nat) 0 sampleMap).array_set 1 =
        sampleMap.array_set 1 ∧
      (applySingleKeyOp (SingleKeyOp.eraseOp : SingleKeyOp Nat) 0 sampleMap).values 1 =
        sampleMap.values 1) :=
  ⟨by decide, single_key_op_frame SingleKeyOp.eraseOp 0 sampleMap 1 (by decide)⟩

/-- Claim C2 counterexample: move-assignment does not clear its source.
For the concrete one-element source engine, after being moved from by
operator=(EnumMap&&) the source's presence bit 0 is still true and its
size is still 1, so the source is not left cleared. -/
theorem move_assign_source_not_cleared :
    ((EnumMapBase.move_assign (EnumMapBase.empty 2 Nat) sampleMap false).2).array_set 0
        = true ∧
    ((EnumMapBase.move_assign (EnumMapBase.empty 2 Nat) sampleMap false).2).size = 1 := by
  decide

/-- Claim C2 (amended): after move-construction the source is left
cleared (every presence bit false and, for a well-formed source, size
zero); after move-assignment the source engine is left entirely
unchanged rather than cleared. -/
theorem move_source_state {N : Nat} {V : Type}
    (m d : EnumMapBase N V) (h : m.wf) :
    ((EnumMapBase.move_construct m).2).array_set = (fun _ => false) ∧
    ((EnumMapBase.move_construct m).2).size = 0 ∧
    (EnumMapBase.move_assign d m false).2 = m := by
  refine ⟨funext fun i => ?_, ?_, ?_⟩
  · exact EnumMapBase.clear_array_set m i
  · exact EnumMapBase.clear_size m h
  · rfl

theorem move_source_state_witness :
    sampleMap.wf ∧
    (((EnumMapBase.move_construct sampleMap).2).array_set = (fun _ => false) ∧
      ((EnumMapBase.move_construct sampleMap).2).size = 0 ∧
      (EnumMapBase.move_assign (EnumMapBase.empty 2 Nat) sampleMap false).2 = sampleMap) :=
  ⟨by decide, move_source_state sampleMap (EnumMapBase.empty 2 Nat) (by decide)⟩

/-- Claim C10: copy self-assignment is a no-op: operator=(const EnumMap&)
early-returns on this == &other, so m = m leaves the presence bits, the
size and every stored element unchanged; without that guard the aliased
body would clear the destination first and then copy from the already
cleared self, leaving every presence bit false. -/
theorem copy_self_assign_noop {N : Nat} {V : Type} (m : EnumMapBase N V) :
    EnumMapBase.copy_assign m m true = m ∧
    (EnumMapBase.copy_assign_unguarded_self m).array_set = (fun _ => false) := by
  constructor
  · rfl
  · funext i
    show m.clear.array_set i = false
    exact EnumMapBase.clear_array_set m i

theorem scanFirst_eq_of_none {N : Nat} (pred : Fin N → Bool) (c : Int)
    (l : List (Fin N)) (h : ∀ j ∈ l, ¬(c < (j.val : Int) ∧ pred j = true)) :
    scanFirst pred c l = (N : Int) := by
  induction l with
  | nil => rfl
  | cons x xs ih =>
      unfold scanFirst
      rw [if_neg (h x (List.mem_cons_self x xs))]
      exact ih (fun j hj => h j (List.mem_cons_of_mem x hj))

theorem scanLast_eq_of_none {N : Nat} (pred : Fin N → Bool) (c : Int)
    (l : List (Fin N)) (h : ∀ j ∈ l, ¬((j.val : Int) < c ∧ pred j = true)) :
    scanLast pred c l = -1 := by
  induction l with
  | nil => rfl
  | cons x xs ih =>
      unfold scanLast
      rw [if_neg (h x (List.mem_cons_self x xs))]
      exact ih (fun j hj => h j (List.mem_cons_of_mem x hj))

theorem scanLast_spec {N : Nat} (pred : Fin N → Bool) (c : Int)
    (l : List (Fin N))
    (hl : l.Pairwise (fun a b : Fin N => (b.val : Int) < (a.val : Int))) :
    (scanLast pred c l = -1 ∨
      ∃ j0 : Fin N, j0 ∈ l ∧ scanLast pred c l = (j0.val : Int)) ∧
    (∀ j ∈ l, scanLast pred c l < (j.val : Int) →
      ¬((j.val : Int) < c ∧ pred j = true)) := by
  induction l with
  | nil =>
      refine ⟨Or.inl rfl, ?_⟩
      intro j hj
      cases hj
  | cons x xs ih =>
      have hpw := List.pairwise_cons.mp hl
      by_cases hx : (x.val : Int) < c ∧ pred x = true
      · have hsl : scanLast pred c (x :: xs) = (x.val : Int) := by
          unfold scanLast
          rw [if_pos hx]
        refine ⟨Or.inr ⟨x, List.mem_cons_self x xs, hsl⟩, ?_⟩
        intro j hj hlt
        rw [hsl] at hlt
        rcases List.mem_cons.mp hj with rfl | hj2
        · exact absurd hlt (lt_irrefl _)
        · exact absurd hlt (not_lt.mpr (le_of_lt (hpw.1 j hj2)))
      · have hsl : scanLast pred c (x :: xs) = scanLast pred c xs := by
          show (if (x.val : Int) < c ∧ pred x = true then (x.val : Int)
            else scanLast pred c xs) = scanLast pred c xs
          rw [if_neg hx]
        have ihh := ih hpw.2
        constructor
        · rw [hsl]
          rcases ihh.1 with h1 | ⟨j0, hj0, hj0e⟩
          · exact Or.inl h1
          · exact Or.inr ⟨j0, List.mem_cons_of_mem x hj0, hj0e⟩
        · intro j hj hlt
          rw [hsl] at hlt
          rcases List.mem_cons.mp hj with rfl | hj2
          · exact hx
          · exact ihh.2 j hj2 hlt

theorem finRange_reverse_pairwise {N : Nat} :
    (List.finRange N).reverse.Pairwise
      (fun a b : Fin N => (b.val : Int) < (a.val : Int)) := by
  rw [List.pairwise_reverse]
  refine (List.pairwise_lt_finRange N).imp ?_
  intro a b hab
  exact_mod_cast hab

theorem scanFirst_after_scanLast {N : Nat} (pred : Fin N → Bool) :
    scanFirst pred (scanLast pred (N : Int) (List.finRange N).reverse)
      (List.finRange N) = (N : Int) := by
  obtain ⟨_, hmax⟩ := scanLast_spec pred (N : Int) (List.finRange N).reverse
    finRange_reverse_pairwise
  apply scanFirst_eq_of_none
  intro j hj
  rintro ⟨hlt, hpj⟩
  have hjm : j ∈ (List.finRange N).reverse :=
    List.mem_reverse.mpr (List.mem_finRange j)
  have hjN : (j.val : Int) < (N : Int) := by exact_mod_cast j.isLt
  exact hmax j hjm hlt ⟨hjN, hpj⟩

theorem scanFirst_from_last_index {N : Nat} (pred : Fin N → Bool) :
    scanFirst pred (((N : Nat) : Int) - 1) (List.finRange N) = (N : Int) := by
  apply scanFirst_eq_of_none
  intro j hj
  rintro ⟨hlt, _⟩
  have hjN : (j.val : Int) < (N : Int) := by exact_mod_cast j.isLt
  omega

theorem scanLast_from_zero {N : Nat} (pred : Fin N → Bool) :
    scanLast pred (((0 : Nat)) : Int) (List.finRange N).reverse = -1 := by
  apply scanLast_eq_of_none
  intro j hj
  rintro ⟨hlt, _⟩
  have hj0 : (0 : Int) ≤ (j.val : Int) := Int.ofNat_nonneg _
  omega

/-- Claim C9: the reverse BidirectionalIterator pre-advances past the
one-past-end position at construction (its constructor applied to a
provider yields the receded provider), and base() returns the forward
iterator one element ahead; in particular rbegin().base() equals end()
and rend().base() equals begin(). -/
theorem reverse_iterator_base_convention {N : Nat} {V : Type}
    (m : EnumMapBase N V) :
    (∀ p : IndexRangeProvider N,
      BidirectionalIterator.construct IteratorDirection.REVERSE p =
        { dir := IteratorDirection.REVERSE, reference_provider_ := p.recede }) ∧
    m.rbeginIt.base = m.endIt ∧
    m.rendIt.base = m.beginIt := by
  refine ⟨fun p => rfl, ?_, ?_⟩
  · show BidirectionalIterator.mk IteratorDirection.FORWARD
        (IndexRangeProvider.mk m.array_set
          (scanFirst m.array_set
            (scanLast m.array_set (((N : Nat)) : Int) (List.finRange N).reverse)
            (List.finRange N))) =
      BidirectionalIterator.mk IteratorDirection.FORWARD
        (IndexRangeProvider.mk m.array_set
          (scanFirst m.array_set (((N : Nat) : Int) - 1) (List.finRange N)))
    rw [scanFirst_after_scanLast, scanFirst_from_last_index]
  · show BidirectionalIterator.mk IteratorDirection.FORWARD
        (IndexRangeProvider.mk m.array_set
          (scanFirst m.array_set
            (scanLast m.array_set (((0 : Nat)) : Int) (List.finRange N).reverse)
            (List.finRange N))) =
      BidirectionalIterator.mk IteratorDirection.FORWARD
        (IndexRangeProvider.mk m.array_set
          (scanFirst m.array_set ((((0 : Nat)) : Int) - 1) (List.finRange N)))
    have h0 : ((((0 : Nat)) : Int) - 1) = (-1 : Int) := by norm_num
    rw [scanLast_from_zero, h0]

theorem insertAllLoop_spec {N : Nat} {V : Type}
    (pairs : List (Fin N × V)) (acc : EnumMapBase N V) :
    (¬((pairs.map Prod.fst).Nodup ∧
        ∀ k ∈ pairs.map Prod.fst, acc.array_set k = false) →
      EnumMapBase.insertAllLoop pairs acc =
        Except.error CheckViolation.duplicate_enum_entries) ∧
    (((pairs.map Prod.fst).Nodup ∧
        ∀ k ∈ pairs.map Prod.fst, acc.array_set k = false) →
      ∃ m, EnumMapBase.insertAllLoop pairs acc = Except.ok m ∧
        m.size = acc.size + pairs.length ∧
        (∀ j : Fin N, m.array_set j =
          (acc.array_set j || decide (j ∈ pairs.map Prod.fst))) ∧
        (∀ p ∈ pairs, m.values p.1 = some p.2) ∧
        (∀ j : Fin N, j ∉ pairs.map Prod.fst → m.values j = acc.values j)) := by
  induction pairs generalizing acc with
  | nil =>
      constructor
      · intro h
        refine absurd ⟨List.nodup_nil, ?_⟩ h
        intro k hk
        exact absurd hk (List.not_mem_nil k)
      · intro _
        refine ⟨acc, rfl, by simp, fun j => by simp, ?_, fun j _ => rfl⟩
        intro p hp
        exact absurd hp (List.not_mem_nil p)
  | cons p rest ih =>
      by_cases hb : acc.array_set p.1 = true
      · have hins : acc.insert p.1 p.2 = ((p.1, false), acc) := by
          unfold EnumMapBase.insert
          rw [if_pos hb]
        have hloop : EnumMapBase.insertAllLoop (p :: rest) acc =
            Except.error CheckViolation.duplicate_enum_entries := by
          show (if ((acc.insert p.1 p.2).1).2 = true
            then EnumMapBase.insertAllLoop rest (acc.insert p.1 p.2).2
            else Except.error CheckViolation.duplicate_enum_entries) = _
          rw [hins]
          rfl
        constructor
        · intro _
          exact hloop
        · rintro ⟨_, hall⟩
          have := hall p.1 (by simp)
          rw [hb] at this
          cases this
      · simp only [Bool.not_eq_true] at hb
        set acc2 : EnumMapBase N V :=
          { values := Function.update acc.values p.1 (some p.2),
            array_set := Function.update acc.array_set p.1 true,
            size := acc.size + 1 } with hacc2
        have hins : acc.insert p.1 p.2 = ((p.1, true), acc2) := by
          unfold EnumMapBase.insert
          rw [if_neg (by simp [hb])]
        have hstep : EnumMapBase.insertAllLoop (p :: rest) acc =
            EnumMapBase.insertAllLoop rest acc2 := by
          show (if ((acc.insert p.1 p.2).1).2 = true
            then EnumMapBase.insertAllLoop rest (acc.insert p.1 p.2).2
            else Except.error CheckViolation.duplicate_enum_entries) = _
          rw [hins]
          rfl
        have hbit2 : ∀ k : Fin N, acc2.array_set k =
            (if k = p.1 then true else acc.array_set k) := by
          intro k
          rw [hacc2]
          dsimp only
          by_cases hk : k = p.1
          · subst hk
            rw [Function.update_same, if_pos rfl]
          · rw [Function.update_noteq hk, if_neg hk]
        have hcond : ((rest.map Prod.fst).Nodup ∧
              ∀ k ∈ rest.map Prod.fst, acc2.array_set k = false) ↔
            (((p :: rest).map Prod.fst).Nodup ∧
              ∀ k ∈ (p :: rest).map Prod.fst, acc.array_set k = false) := by
          simp only [List.map_cons, List.nodup_cons, List.mem_cons]
          constructor
          · rintro ⟨hnd2, hall2⟩
            have hnm : p.1 ∉ rest.map Prod.fst := by
              intro hmem
              have hup := hall2 p.1 hmem
              rw [Function.update_same] at hup
              cases hup
            refine ⟨⟨hnm, hnd2⟩, ?_⟩
            intro k hk
            rcases hk with rfl | hk2
            · exact hb
            · have hup := hall2 k hk2
              by_cases hkp : k = p.1
              · subst hkp
                rw [Function.update_same] at hup
                cases hup
              · rw [Function.update_noteq hkp] at hup
                exact hup
          · rintro ⟨⟨hnm, hnd2⟩, hall⟩
            refine ⟨hnd2, ?_⟩
            intro k hk
            have hkp : k ≠ p.1 := by
              rintro rfl
              exact hnm hk
            show Function.update acc.array_set p.1 true k = false
            rw [Function.update_noteq hkp]
            exact hall k (Or.inr hk)
        constructor
        · intro h
          rw [hstep]
          exact (ih acc2).1 (fun hc => h (hcond.mp hc))
        · intro hfull
          obtain ⟨m, hm, hsize, hbits, hvals, hframe⟩ :=
            (ih acc2).2 (hcond.mpr hfull)
          have hnm : p.1 ∉ rest.map Prod.fst := by
            have := hfull.1
            simp only [List.map_cons, List.nodup_cons] at this
            exact this.1
          refine ⟨m, ?_, ?_, ?_, ?_, ?_⟩
          · rw [hstep]
            exact hm
          · rw [hsize, hacc2]
            simp only [List.length_cons]
            omega
          · intro j
            rw [hbits j, hbit2 j]
            by_cases hj : j = p.1
            · subst hj
              simp
            · have hbeq : (j == p.1) = false := beq_eq_false_iff_ne.mpr hj
              simp [hj, hbeq]
          · intro q hq
            rcases List.mem_cons.mp hq with rfl | hq2
            · rw [hframe q.1 hnm, hacc2]
              dsimp only
              rw [Function.update_same]
            · exact hvals q hq2
          · intro j hj
            have hj1 : j ≠ p.1 := by
              rintro rfl
              exact hj (by simp)
            have hj2 : j ∉ rest.map Prod.fst := by
              intro hmem
              exact hj (by simp [hmem])
            rw [hframe j hj2, hacc2]
            dsimp only
            rw [Function.update_noteq hj1]

/-- Claim C4: create_with_all_entries(pairs) diverges through the
Checking policy's duplicate_enum_entries exactly when some key occurs
twice in pairs; for duplicate-free pairs it diverges through
missing_enum_entries exactly when the number of pairs differs from the
domain cardinality N; otherwise it returns an engine in which every
domain value is present and maps to its paired value.  On a violation no
(partially built) engine is returned at all. -/
theorem create_with_all_entries_spec {N : Nat} {V : Type} [Inhabited V]
    (pairs : List (Fin N × V)) :
    (EnumMapBase.create_with_all_entries pairs =
        Except.error CheckViolation.duplicate_enum_entries ↔
      ¬(pairs.map Prod.fst).Nodup) ∧
    ((pairs.map Prod.fst).Nodup →
      (EnumMapBase.create_with_all_entries pairs =
          Except.error CheckViolation.missing_enum_entries ↔
        pairs.length ≠ N)) ∧
    (∀ m, EnumMapBase.create_with_all_entries pairs = Except.ok m →
      (∀ j : Fin N, m.array_set j = true) ∧
      (∀ p ∈ pairs, m.at_ p.1 = Except.ok p.2)) := by
  have hempty : ∀ k ∈ pairs.map Prod.fst,
      (EnumMapBase.empty N V).array_set k = false := fun k _ => rfl
  by_cases hnd : (pairs.map Prod.fst).Nodup
  · obtain ⟨m0, hm0, hsize, hbits, hvals, _⟩ :=
      (insertAllLoop_spec pairs (EnumMapBase.empty N V)).2 ⟨hnd, hempty⟩
    have hsz0 : m0.size = pairs.length := by
      rw [hsize]
      show (EnumMapBase.empty N V).size + pairs.length = pairs.length
      simp [EnumMapBase.empty]
    have hcreate : EnumMapBase.create_with_all_entries pairs =
        (if m0.size = N then Except.ok m0
         else Except.error CheckViolation.missing_enum_entries) := by
      unfold EnumMapBase.create_with_all_entries
      rw [hm0]
    refine ⟨?_, ?_, ?_⟩
    · constructor
      · intro h
        rw [hcreate] at h
        split at h
        · exact Except.noConfusion h
        · injection h with h2
          cases h2
      · intro h
        exact absurd hnd h
    · intro _
      constructor
      · intro h
        rw [hcreate] at h
        split at h
        · exact Except.noConfusion h
        · next hne =>
            intro hlen
            rw [hsz0, hlen] at hne
            exact hne rfl
      · intro hlen
        rw [hcreate, if_neg (by rw [hsz0]; exact hlen)]
    · intro m hok
      rw [hcreate] at hok
      split at hok
      · next hsz =>
          injection hok with hmm
          subst hmm
          have hlen : pairs.length = N := by rw [← hsz0, hsz]
          have hmemall : ∀ j : Fin N, j ∈ pairs.map Prod.fst := by
            intro j
            have hcard : (pairs.map Prod.fst).toFinset = Finset.univ := by
              apply Finset.eq_univ_of_card
              rw [List.toFinset_card_of_nodup hnd, List.length_map, hlen,
                Fintype.card_fin]
            have hj : j ∈ (pairs.map Prod.fst).toFinset := by
              rw [hcard]
              exact Finset.mem_univ j
            exact List.mem_toFinset.mp hj
          have hbitall : ∀ j : Fin N, m0.array_set j = true := by
            intro j
            rw [hbits j]
            simp [EnumMapBase.empty, hmemall j]
          refine ⟨hbitall, ?_⟩
          intro q hq
          unfold EnumMapBase.at_
          rw [if_pos (hbitall q.1), hvals q hq]
          rfl
      · exact Except.noConfusion hok
  · have hloop : EnumMapBase.insertAllLoop pairs (EnumMapBase.empty N V) =
        Except.error CheckViolation.duplicate_enum_entries :=
      (insertAllLoop_spec pairs (EnumMapBase.empty N V)).1 (fun hc => hnd hc.1)
    have hcreate : EnumMapBase.create_with_all_entries pairs =
        Except.error CheckViolation.duplicate_enum_entries := by
      unfold EnumMapBase.create_with_all_entries
      rw [hloop]
    refine ⟨⟨fun _ => hnd, fun _ => hcreate⟩, ?_, ?_⟩
    · intro h
      exact absurd h hnd
    · intro m hm
      rw [hcreate] at hm
      exact Except.noConfusion hm

theorem create_with_all_entries_spec_witness :
    (([((0 : Fin 3), (10 : Nat)), (1, 11), (2, 12)].map Prod.fst).Nodup) ∧
    (EnumMapBase.create_with_all_entries
        [((0 : Fin 3), (10 : Nat)), (1, 11), (2, 12)] =
          Except.error CheckViolation.missing_enum_entries ↔
      ([((0 : Fin 3), (10 : Nat)), (1, 11), (2, 12)] : List (Fin 3 × Nat)).length ≠ 3) :=
  ⟨by decide,
   (create_with_all_entries_spec
      [((0 : Fin 3), (10 : Nat)), (1, 11), (2, 12)]).2.1 (by decide)⟩
